import Mathlib

/-!
Verification of the chunking, graph-construction, configuration-copying and
HTML-cleanup layer of the Scrapegraph-ai repository.

Python text is modelled as `List Char`.  External collaborators (the token
measurer num_tokens_calculus, BeautifulSoup, urljoin, the minifier) are
parameters of the embedded functions.  Components of the repository that the
bundled sources only call (the BaseNode input parser, the ConditionalNode
evaluator, the Graph executor's edge selection, safe_deepcopy) are modelled
from the specification and marked as such in their doc comments.  Python's
binary64 float arithmetic in the semchunk budget computation is modelled
exactly, with round-to-nearest-ties-to-even on dyadic rationals.
-/

namespace Scrape

/-! Definitions: the chunker (split_text_into_chunks.py). -/

/-- Whitespace test matching the character class Python's str.split() splits on
(the six ASCII whitespace characters; exotic Unicode whitespace is immaterial
to the claims considered here). -/
def isWS (c : Char) : Bool :=
  c = ' ' || c = '\t' || c = '\n' || c = '\r' || c = '\x0b' || c = '\x0c'

/-- Accumulator-based core of Python's str.split(): scans the text, building
the current word in reversed form in `acc`, flushing it at whitespace. -/
def wordsAux : List Char → List Char → List (List Char)
  | [], acc => if acc = [] then [] else [acc.reverse]
  | c :: cs, acc =>
      if isWS c then
        if acc = [] then wordsAux cs [] else acc.reverse :: wordsAux cs []
      else wordsAux cs (c :: acc)

/-- Model of Python's text.split(): the whitespace-delimited words of the text,
empty fragments dropped. -/
def pySplit (s : List Char) : List (List Char) := wordsAux s []

/-- Model of Python's sep.join for sep a single space: intercalates one space
between the fragments. -/
def joinSpace : List (List Char) → List Char
  | [] => []
  | [w] => w
  | w :: v :: ws => w ++ ' ' :: joinSpace (v :: ws)

/-- Embedding of the word-packing loop of split_text_into_chunks (the
use_semchunk=False branch): accumulate words while the running total of their
token counts stays within the budget, emit the joined chunk when the next word
would overflow, and flush the final chunk if non-empty. -/
def chunkLoop (μ : List Char → Nat) (B : Nat) :
    List (List Char) → List (List Char) → Nat → List (List Char)
  | [], cur, _ => if cur = [] then [] else [joinSpace cur]
  | w :: ws, cur, len =>
      if B < len + μ w then
        joinSpace cur :: chunkLoop μ B ws [w] (μ w)
      else
        chunkLoop μ B ws (cur ++ [w]) (len + μ w)

/-- Embedding of split_text_into_chunks(text, chunk_size, use_semchunk=False)
from scrapegraphai/utils/split_text_into_chunks.py, parametric in the external
token measurer `μ` (num_tokens_calculus). -/
def split_text_into_chunks (μ : List Char → Nat) (text : List Char)
    (chunk_size : Nat) : List (List Char) :=
  if μ text ≤ chunk_size then [text]
  else chunkLoop μ chunk_size (pySplit text) [] 0

/-- Character-count token measure, used as a concrete admissible instance of
the abstract measurer. -/
def charLen (s : List Char) : Nat := s.length

/-- Token measure counting the non-whitespace characters; it is additive over
space-joins and so satisfies the join-subadditivity hypothesis. -/
def nonWSLen (s : List Char) : Nat := (s.filter (fun c => !isWS c)).length

/-- Words: non-empty fragments free of whitespace, the shape of every element
produced by pySplit. -/
def wordOK (w : List Char) : Prop := w ≠ [] ∧ ∀ c ∈ w, isWS c = false

/-- Admissibility conditions on a token measure named by claim C1:
non-negativity (built into the Nat codomain), zero on the empty string, and
monotonicity under concatenation on either side. -/
def tokenMeasureAdmissible (μ : List Char → Nat) : Prop :=
  μ [] = 0 ∧ ∀ a b : List Char, μ a ≤ μ (a ++ b) ∧ μ b ≤ μ (a ++ b)

/-- Claim C1 as stated: under any admissible token measure, every returned
chunk measures within the budget except a chunk that is a single oversized
word. -/
def C1_claim : Prop :=
  ∀ μ : List Char → Nat, tokenMeasureAdmissible μ →
    ∀ (T : List Char) (B : Nat), 0 < B →
      ∀ c ∈ split_text_into_chunks μ T B,
        μ c ≤ B ∨ (pySplit c = [c] ∧ B < μ c)

/-! Definitions: binary64 arithmetic of the semchunk budget computation. -/

/-- Fuel-based floor-log2 implemented with an explicit Nat.rec so that the
kernel can evaluate it on literals. -/
def natLog2F (f : Nat) : Nat → Nat :=
  @Nat.rec (fun _ => Nat → Nat)
    (fun _ => 0)
    (fun _ ih m => if m ≤ 1 then 0 else ih (m / 2) + 1) f

/-- Floor of the base-2 logarithm, correct for n < 2 ^ 1100, which covers the
entire binary64 range; Python raises OverflowError when an int beyond that
range is converted to float. -/
def natLog2 (n : Nat) : Nat := natLog2F 1100 n

/-- Round-to-nearest, ties-to-even of m / 2 ^ s on natural numbers: the
rounding step IEEE-754 binary64 arithmetic performs on the mantissa. -/
def roundMant (m s : Nat) : Nat :=
  let d := 2 ^ s
  let t := m / d
  let r := m % d
  if 2 * r < d then t else if d < 2 * r then t + 1 else if t % 2 = 0 then t else t + 1

/-- Non-negative dyadic rational m * 2 ^ e, the value class of finite
non-negative binary64 doubles. -/
def Dy : Type := Nat × Int

/-- Rational value denoted by a dyadic pair. -/
def dval (x : Dy) : ℚ := (x.1 : ℚ) * 2 ^ x.2

/-- Rounding of a non-negative dyadic to 53 significant bits: the binary64
round-to-nearest (ties to even) of the exact value, for exponents inside the
normal range. -/
def roundB64 (x : Dy) : Dy :=
  let L := natLog2 x.1
  if L ≤ 52 then x else (roundMant x.1 (L - 52), x.2 + (L - 52))

/-- Value of the Python float literal 0.9: the binary64 double nearest to
9/10, namely 8106479329266893 * 2 ^ (-53). -/
def lit09 : Dy := (8106479329266893, -53)

/-- Conversion of a Python int to float (CPython converts with correct
round-to-nearest; beyond 2 ^ 1024 it raises OverflowError, outside this
model's range hypotheses). -/
def pyFloatOfNat (n : Nat) : Dy := roundB64 (n, 0)

/-- Binary64 multiplication: the exact product rounded to nearest. -/
def pyMulB64 (x y : Dy) : Dy := roundB64 (x.1 * y.1, x.2 + y.2)

/-- Python's int() applied to a non-negative float: truncation toward zero,
which on non-negative values is the floor. -/
def pyTrunc (x : Dy) : Nat :=
  if 0 ≤ x.2 then x.1 * 2 ^ x.2.toNat else x.1 / 2 ^ (-x.2).toNat

/-- Embedding of the semchunk budget preparation in split_text_into_chunks:
chunk_size = min(chunk_size, int(chunk_size * 0.9)), with the multiplication
performed in binary64 as in Python. -/
def semchunkEffectiveChunkSize (chunk_size : Nat) : Nat :=
  min chunk_size (pyTrunc (pyMulB64 (pyFloatOfNat chunk_size) lit09))

/-- Claim C6 as stated: the effective budget equals
min(chunk_size, floor(chunk_size * 9 / 10)) for every positive chunk_size. -/
def C6_claim : Prop :=
  ∀ B : Nat, 0 < B → semchunkEffectiveChunkSize B = min B (9 * B / 10)

/-! Definitions: graph construction
(smart_scraper_multi_concat_graph.py, document_scraper_multi_graph.py). -/

/-- Node descriptor as constructed in _create_graph: node name, its declared
input expression and its declared output keys. -/
structure NodeDecl where
  node_name : String
  input : String
  output : List String

/-- Configuration record of the ConditionalNode built by
SmartScraperMultiConcatGraph._create_graph. -/
structure ConditionalConfig where
  key_name : String
  condition : String

/-- Node declarations of SmartScraperMultiConcatGraph._create_graph, in
construction order. -/
def smartScraperMultiConcat_nodes : List NodeDecl :=
  [ { node_name := "GraphIteratorNode", input := "user_prompt & urls",
      output := ["results"] },
    { node_name := "ConditionalNode", input := "results", output := ["results"] },
    { node_name := "MergeAnswersNode", input := "user_prompt & results",
      output := ["answer"] },
    { node_name := "ConcatNode", input := "results", output := ["answer"] } ]

/-- The node_config of the ConditionalNode in
SmartScraperMultiConcatGraph._create_graph. -/
def conditional_node_config : ConditionalConfig :=
  { key_name := "results", condition := "len(results) > 2" }

/-- Edge list of SmartScraperMultiConcatGraph._create_graph: the iterator
feeds the conditional, whose first outgoing edge is the true branch
(MergeAnswersNode) and second the false branch (ConcatNode), as the source's
inline comments record. -/
def smartScraperMultiConcat_edges : List (String × String) :=
  [ ("GraphIteratorNode", "ConditionalNode"),
    ("ConditionalNode", "MergeAnswersNode"),
    ("ConditionalNode", "ConcatNode") ]

/-- Entry point of SmartScraperMultiConcatGraph._create_graph. -/
def smartScraperMultiConcat_entry : String := "GraphIteratorNode"

/-- Modelled from the spec: the ConditionalNode (whose class lives outside
the bundled sources) evaluates its declaratively expressed predicate over the
value stored at key_name; the condition string of conditional_node_config
denotes the test that the results list has length greater than 2. -/
def condLenResultsGt2 {α : Type} (results : List α) : Bool :=
  decide (2 < results.length)

/-- Outgoing edge targets of a node, in edge-list order. -/
def outgoingEdges (edges : List (String × String)) (n : String) : List String :=
  (edges.filter (fun e => e.1 == n)).map (fun e => e.2)

/-- Modelled from the spec: the Graph executor maps the conditional outcome
to the correspondingly labeled outgoing edge — true selects the first
outgoing edge of the conditional, false the second — and exactly one edge
fires. -/
def routeConditional (edges : List (String × String)) (n : String)
    (outcome : Bool) : Option String :=
  match outgoingEdges edges n with
  | [t, f] => some (if outcome then t else f)
  | _ => none

/-- Drop leading spaces. -/
def dropSpaces (w : List Char) : List Char := w.dropWhile (fun c => c = ' ')

/-- Strip spaces from both ends, as Python str.strip() does for the keys of
an &-joined input expression. -/
def stripSpaces (w : List Char) : List Char :=
  ((dropSpaces w).reverse.dropWhile (fun c => c = ' ')).reverse

/-- Split on the ampersand character, accumulator-based. -/
def splitAmpAux : List Char → List Char → List (List Char)
  | [], acc => [acc.reverse]
  | c :: cs, acc =>
      if c = '&' then acc.reverse :: splitAmpAux cs []
      else splitAmpAux cs (c :: acc)

/-- Modelled from the spec: a node's required input keys are the components
of its &-joined input expression (the parsing itself lives in the BaseNode
class outside the bundled sources), each stripped of surrounding spaces. -/
def parseInputKeys (input : String) : List String :=
  ((splitAmpAux input.toList []).map stripSpaces).map List.asString

/-- Input expression of the GraphIteratorNode built by
DocumentScraperMultiGraph._create_graph. -/
def documentScraperMulti_iterator_input : String := "user_prompt & jsons"

/-- State values: a Python dict maps string keys to heterogeneous values;
strings and lists of strings are the shapes run() stores and reads. -/
inductive StateVal where
  | str : String → StateVal
  | strList : List String → StateVal
deriving DecidableEq

/-- Initial state built by DocumentScraperMultiGraph.run:
inputs = ("user_prompt": self.prompt, "xmls": self.source). -/
def documentScraperMulti_run_inputs (prompt : String) (source : List String) :
    List (String × StateVal) :=
  [("user_prompt", .str prompt), ("xmls", .strList source)]

/-- Association lookup modelling Python dict indexing on the final state. -/
def stateLookup (st : List (String × StateVal)) (k : String) : Option StateVal :=
  (st.find? (fun kv => kv.1 == k)).map (fun kv => kv.2)

/-- Model of Python dict.get(key, default). -/
def pyDictGet (st : List (String × StateVal)) (k : String) (default : StateVal) :
    StateVal :=
  (stateLookup st k).getD default

/-- Embedding of the tail of SmartScraperMultiConcatGraph.run: it returns
self.final_state.get("answer", "No answer found."); graph execution itself is
abstracted by quantifying over the final state.  The function is total: a
missing answer key yields the default, never an error. -/
def smartScraperMultiConcat_run_answer (final_state : List (String × StateVal)) :
    StateVal :=
  pyDictGet final_state "answer" (.str "No answer found.")

/-- Embedding of the tail of DocumentScraperMultiGraph.run, identical to the
concat variant: final_state.get("answer", "No answer found."). -/
def documentScraperMulti_run_answer (final_state : List (String × StateVal)) :
    StateVal :=
  pyDictGet final_state "answer" (.str "No answer found.")

/-! Definitions: cleanup_html (cleanup_html.py). -/

/-- Prefix test on character lists. -/
def listPrefixOf : List Char → List Char → Bool
  | [], _ => true
  | _ :: _, [] => false
  | c :: cs, d :: ds => c = d && listPrefixOf cs ds

/-- Infix test on character lists: somewhere in the haystack the needle is a
prefix. -/
def listInfixOf (needle : List Char) : List Char → Bool
  | [] => listPrefixOf needle []
  | d :: ds => listPrefixOf needle (d :: ds) || listInfixOf needle ds

/-- Model of Python's substring containment test (sub in s). -/
def strContains (hay needle : String) : Bool := listInfixOf needle.toList hay.toList

/-- Observations cleanup_html makes of the BeautifulSoup parse of a document:
the title text when a title tag exists, the rendering of the body tag when a
body exists, the href of every anchor carrying one, the src of every image
carrying one, and the text extract_from_script_tags produces.  BeautifulSoup
is an external collaborator, so the parse result is the model's input. -/
structure SoupModel where
  title : Option String
  body : Option String
  hrefs : List String
  img_srcs : List String
  script_content : String

/-- Error message cleanup_html raises when no body is found. -/
def cleanupErrMsg (html_content : String) : String :=
  "No HTML body content found, please try setting the headless flag to False in the graph configuration. HTML content: " ++ html_content

/-- Embedding of cleanup_html(html_content, base_url) from
scrapegraphai/utils/cleanup_html.py, parametric in the external collaborators:
the parser, urljoin and the minifier.  A missing body raises ValueError,
modelled as the error branch of Except. -/
def cleanup_html (parse : String → SoupModel)
    (urljoin : String → String → String) (minify : String → String)
    (html_content : String) (base_url : String) :
    Except String (String × String × List String × List String × String) :=
  let soup := parse html_content
  let title := soup.title.getD ""
  let script_content := soup.script_content
  let link_urls := soup.hrefs.map (fun href => urljoin base_url href)
  let image_urls := soup.img_srcs.map (fun src =>
    if strContains src "http" = false then urljoin base_url src else src)
  match soup.body with
  | some body_content =>
      .ok (title, minify body_content, link_urls, image_urls, script_content)
  | none => .error (cleanupErrMsg html_content)

/-- Concrete soup used to witness the body-present branch. -/
def soupExample : SoupModel :=
  { title := some "T", body := some "<p>x</p>", hrefs := ["a"],
    img_srcs := ["i.png", "http://x/i.png"], script_content := "s" }

/-! Definitions: the heap model of configuration deep-copying. -/

/-- Heap cell of the Python object-graph model used for the configuration
records: an atomic value or a composite (dict or list) holding named
references to child objects. -/
inductive Cell where
  | atom : String → Cell
  | node : List (String × Nat) → Cell

/-- Addresses a cell refers to. -/
def cellRefs : Cell → List Nat
  | .atom _ => []
  | .node kvs => kvs.map (fun kv => kv.2)

/-- Store update at a single address. -/
def updateMem (mem : Nat → Cell) (a : Nat) (c : Cell) : Nat → Cell :=
  fun b => if b = a then c else mem b

/-- Depth-bounded observation of the object rooted at an address: the value a
Python program can see by traversing the structure.  Two roots with equal
serializations at every depth denote equal values. -/
def serialize : Nat → (Nat → Cell) → Nat → List String
  | 0, _, _ => ["deep"]
  | g + 1, mem, a =>
      match mem a with
      | .atom s => ["atom", s]
      | .node kvs => "node" :: kvs.flatMap (fun kv => kv.1 :: serialize g mem kv.2)

/-- Copy of a list of named children with a caller-supplied recursive copier:
threads the output store and the allocation pointer left to right. -/
def dcKidsGo (rec : Nat → (Nat → Cell) → Nat → Option (Nat × (Nat → Cell) × Nat)) :
    List (String × Nat) → (Nat → Cell) → Nat →
      Option (List (String × Nat) × (Nat → Cell) × Nat)
  | [], out, n => some ([], out, n)
  | (k, a) :: rest, out, n =>
      match rec a out n with
      | none => none
      | some (a2, out2, n2) =>
          match dcKidsGo rec rest out2 n2 with
          | none => none
          | some (kvs2, out3, n3) => some ((k, a2) :: kvs2, out3, n3)

/-- Modelled from the spec: deep copy of the object rooted at an address (the
safe_deepcopy helper and copy.deepcopy live outside the bundled sources; the
spec stipulates a deep-copied configuration with no shared mutable
substructure).  Children are copied recursively into fresh addresses, then the
root cell is allocated; fuel bounds the recursion depth. -/
def dcAddr : Nat → (Nat → Cell) → Nat → (Nat → Cell) → Nat →
    Option (Nat × (Nat → Cell) × Nat)
  | 0, _, _, _, _ => none
  | f + 1, src, a, out, n =>
      match src a with
      | .atom s => some (n, updateMem out n (.atom s), n + 1)
      | .node kvs =>
          match dcKidsGo (dcAddr f src) kvs out n with
          | none => none
          | some (kvs2, out2, n2) => some (n2, updateMem out2 n2 (.node kvs2), n2 + 1)

/-- Invariant properties of one copying step: the allocation pointer climbs,
the result address is fresh, only the fresh window is written, and cells in
the fresh window refer only into the fresh window. -/
def CopyInv (a2 : Nat) (out out2 : Nat → Cell) (n n2 : Nat) : Prop :=
  n ≤ n2 ∧ n ≤ a2 ∧ a2 < n2 ∧
  (∀ b, b < n ∨ n2 ≤ b → out2 b = out b) ∧
  (∀ b, n ≤ b → b < n2 → ∀ r ∈ cellRefs (out2 b), n ≤ r ∧ r < n2)

/-- Embedding of self.copy_config = safe_deepcopy(config) in
SmartScraperMultiConcatGraph.__init__, the copy _create_graph hands to the
GraphIteratorNode as scraper_config: a deep copy of the caller's
configuration object performed in the same heap, starting at the current
allocation pointer. -/
def smartScraperMultiConcat_scraper_config (fuel : Nat) (mem : Nat → Cell)
    (config next : Nat) : Option (Nat × (Nat → Cell) × Nat) :=
  dcAddr fuel mem config mem next

/-- Embedding of self.copy_config = safe_deepcopy(config) in
DocumentScraperMultiGraph.__init__ (the deepcopy of the schema proceeds the
same way); identical to the concat variant. -/
def documentScraperMulti_scraper_config (fuel : Nat) (mem : Nat → Cell)
    (config next : Nat) : Option (Nat × (Nat → Cell) × Nat) :=
  dcAddr fuel mem config mem next

/-- Concrete two-cell heap used to witness the deep-copy theorem: address 0
holds a configuration dict whose llm entry points at the atom at address 1. -/
def memExample : Nat → Cell :=
  fun a => if a = 0 then Cell.node [("llm", 1)] else Cell.atom "gpt"

/-- Store state after copying memExample's configuration: the atom is
duplicated at address 2, the dict at address 3. -/
def outExample : Nat → Cell :=
  updateMem (updateMem memExample 2 (Cell.atom "gpt")) 3 (Cell.node [("llm", 2)])

end Scrape
namespace Scrape

/-! Theorems: the chunker (claims C1, C2, C4, C9). -/

theorem wordsAux_nil (acc : List Char) :
    wordsAux [] acc = if acc = [] then [] else [acc.reverse] := rfl

theorem wordsAux_cons (c : Char) (cs acc : List Char) :
    wordsAux (c :: cs) acc =
      if isWS c then
        if acc = [] then wordsAux cs [] else acc.reverse :: wordsAux cs []
      else wordsAux cs (c :: acc) := rfl

theorem wordsAux_append_space (x : List Char) :
    ∀ (acc y : List Char),
      wordsAux (x ++ ' ' :: y) acc = wordsAux x acc ++ wordsAux y [] := by
  induction x with
  | nil =>
      intro acc y
      rw [List.nil_append, wordsAux_cons, wordsAux_nil]
      have hws : isWS ' ' = true := rfl
      rw [if_pos hws]
      by_cases h : acc = []
      · rw [if_pos h, if_pos h, List.nil_append]
      · rw [if_neg h, if_neg h, List.cons_append, List.nil_append]
  | cons c x ih =>
      intro acc y
      rw [List.cons_append, wordsAux_cons, wordsAux_cons]
      by_cases hc : isWS c
      · rw [if_pos hc, if_pos hc]
        by_cases h : acc = []
        · rw [if_pos h, if_pos h, ih]
        · rw [if_neg h, if_neg h, ih, List.cons_append]
      · rw [if_neg hc, if_neg hc, ih]

theorem wordsAux_no_ws (x : List Char) :
    ∀ acc : List Char, (∀ c ∈ x, isWS c = false) →
      wordsAux x acc =
        if acc.reverse ++ x = [] then [] else [acc.reverse ++ x] := by
  induction x with
  | nil =>
      intro acc _
      rw [wordsAux_nil, List.append_nil]
      by_cases h : acc = []
      · rw [if_pos h, if_pos (by simp [h])]
      · rw [if_neg h, if_neg (by simp [h])]
  | cons c x ih =>
      intro acc hx
      have hc : isWS c = false := hx c (List.mem_cons_self c x)
      rw [wordsAux_cons, if_neg (by simp [hc])]
      rw [ih (c :: acc) (fun d hd => hx d (List.mem_cons_of_mem c hd))]
      have hne : acc.reverse ++ c :: x ≠ [] := by simp
      have hne2 : (c :: acc).reverse ++ x ≠ [] := by simp
      rw [if_neg hne2, if_neg hne]
      have : (c :: acc).reverse ++ x = acc.reverse ++ c :: x := by
        simp
      rw [this]

theorem pySplit_word (w : List Char) (hw : wordOK w) : pySplit w = [w] := by
  unfold pySplit
  rw [wordsAux_no_ws w [] hw.2]
  simp [hw.1]

theorem pySplit_joinSpace_flatten (l : List (List Char)) :
    pySplit (joinSpace l) = (l.map pySplit).flatten := by
  induction l with
  | nil => rfl
  | cons w l ih =>
      cases l with
      | nil => simp [joinSpace]
      | cons v l2 =>
          have hj : joinSpace (w :: v :: l2) = w ++ ' ' :: joinSpace (v :: l2) := rfl
          rw [hj]
          unfold pySplit
          rw [wordsAux_append_space]
          have : wordsAux (joinSpace (v :: l2)) [] = pySplit (joinSpace (v :: l2)) := rfl
          rw [this, ih]
          simp only [List.map_cons, List.flatten_cons]
          rfl

theorem flatten_map_singleton (l : List (List Char)) :
    (l.map (fun w => [w])).flatten = l := by
  induction l with
  | nil => rfl
  | cons w l ih => simp [ih]

theorem pySplit_joinSpace_words (l : List (List Char))
    (hl : ∀ w ∈ l, wordOK w) : pySplit (joinSpace l) = l := by
  rw [pySplit_joinSpace_flatten]
  have : l.map pySplit = l.map (fun w => [w]) := by
    apply List.map_congr_left
    intro w hw
    exact pySplit_word w (hl w hw)
  rw [this, flatten_map_singleton]

theorem pySplit_mem_wordOK (x : List Char) :
    ∀ acc : List Char, (∀ c ∈ acc, isWS c = false) →
      ∀ w ∈ wordsAux x acc, wordOK w := by
  induction x with
  | nil =>
      intro acc hacc w hw
      rw [wordsAux_nil] at hw
      by_cases h : acc = []
      · rw [if_pos h] at hw
        exact absurd hw (List.not_mem_nil w)
      · rw [if_neg h] at hw
        have : w = acc.reverse := List.mem_singleton.mp hw
        subst this
        constructor
        · simp [h]
        · intro c hc
          exact hacc c (List.mem_reverse.mp hc)
  | cons c x ih =>
      intro acc hacc w hw
      rw [wordsAux_cons] at hw
      by_cases hc : isWS c
      · rw [if_pos hc] at hw
        by_cases h : acc = []
        · rw [if_pos h] at hw
          exact ih [] (by intro d hd; exact absurd hd (List.not_mem_nil d)) w hw
        · rw [if_neg h] at hw
          rcases List.mem_cons.mp hw with h1 | h2
          · subst h1
            constructor
            · simp [h]
            · intro d hd
              exact hacc d (List.mem_reverse.mp hd)
          · exact ih [] (by intro d hd; exact absurd hd (List.not_mem_nil d)) w h2
      · rw [if_neg hc] at hw
        refine ih (c :: acc) ?_ w hw
        intro d hd
        rcases List.mem_cons.mp hd with h1 | h2
        · subst h1
          exact eq_false_of_ne_true hc
        · exact hacc d h2

theorem chunkLoop_nil (μ : List Char → Nat) (B : Nat) (cur : List (List Char))
    (len : Nat) :
    chunkLoop μ B [] cur len = if cur = [] then [] else [joinSpace cur] := rfl

theorem chunkLoop_cons (μ : List Char → Nat) (B : Nat) (w : List Char)
    (ws cur : List (List Char)) (len : Nat) :
    chunkLoop μ B (w :: ws) cur len =
      if B < len + μ w then joinSpace cur :: chunkLoop μ B ws [w] (μ w)
      else chunkLoop μ B ws (cur ++ [w]) (len + μ w) := rfl

theorem chunkLoop_flatten (μ : List Char → Nat) (B : Nat) (ws : List (List Char)) :
    ∀ (cur : List (List Char)) (len : Nat),
      (∀ w ∈ cur, wordOK w) → (∀ w ∈ ws, wordOK w) →
      ((chunkLoop μ B ws cur len).map pySplit).flatten = cur ++ ws := by
  induction ws with
  | nil =>
      intro cur len hcur _
      rw [chunkLoop_nil]
      by_cases h : cur = []
      · rw [if_pos h, h]
        rfl
      · rw [if_neg h]
        simp [pySplit_joinSpace_words cur hcur]
  | cons w ws ih =>
      intro cur len hcur hws
      have hw : wordOK w := hws w (List.mem_cons_self w ws)
      have hws2 : ∀ v ∈ ws, wordOK v := fun v hv => hws v (List.mem_cons_of_mem w hv)
      rw [chunkLoop_cons]
      by_cases h : B < len + μ w
      · rw [if_pos h]
        simp only [List.map_cons, List.flatten_cons]
        rw [pySplit_joinSpace_words cur hcur]
        rw [ih [w] (μ w) (by intro v hv; rw [List.mem_singleton.mp hv]; exact hw) hws2]
        simp
      · rw [if_neg h]
        rw [ih (cur ++ [w]) (len + μ w) ?_ hws2]
        · simp
        · intro v hv
          rcases List.mem_append.mp hv with h1 | h2
          · exact hcur v h1
          · rw [List.mem_singleton.mp h2]
            exact hw

theorem chunkLoop_mem (μ : List Char → Nat) (B : Nat) (ws : List (List Char)) :
    ∀ (cur : List (List Char)) (len : Nat) (c : List Char),
      (∀ w ∈ ws, wordOK w) → (∀ w ∈ cur, wordOK w) →
      ((cur.map μ).sum ≤ B ∨ ∃ w, cur = [w]) →
      len = (cur.map μ).sum →
      c ∈ chunkLoop μ B ws cur len →
      ∃ l, c = joinSpace l ∧ (∀ w ∈ l, wordOK w) ∧
        ((l.map μ).sum ≤ B ∨ ∃ w, l = [w]) := by
  induction ws with
  | nil =>
      intro cur len c _ hcur hinv _ hc
      rw [chunkLoop_nil] at hc
      by_cases h : cur = []
      · rw [if_pos h] at hc
        exact absurd hc (List.not_mem_nil c)
      · rw [if_neg h] at hc
        exact ⟨cur, List.mem_singleton.mp hc, hcur, hinv⟩
  | cons w ws ih =>
      intro cur len c hws hcur hinv hlen hc
      have hw : wordOK w := hws w (List.mem_cons_self w ws)
      have hws2 : ∀ v ∈ ws, wordOK v := fun v hv => hws v (List.mem_cons_of_mem w hv)
      rw [chunkLoop_cons] at hc
      by_cases h : B < len + μ w
      · rw [if_pos h] at hc
        rcases List.mem_cons.mp hc with h1 | h2
        · exact ⟨cur, h1, hcur, hinv⟩
        · refine ih [w] (μ w) c hws2 ?_ (Or.inr ⟨w, rfl⟩) (by simp) h2
          intro v hv
          rw [List.mem_singleton.mp hv]
          exact hw
      · rw [if_neg h] at hc
        refine ih (cur ++ [w]) (len + μ w) c hws2 ?_ ?_ ?_ hc
        · intro v hv
          rcases List.mem_append.mp hv with h1 | h2
          · exact hcur v h1
          · rw [List.mem_singleton.mp h2]
            exact hw
        · left
          simp only [List.map_append, List.sum_append, List.map_cons, List.sum_cons,
            List.map_nil, List.sum_nil]
          omega
        · simp only [List.map_append, List.sum_append, List.map_cons, List.sum_cons,
            List.map_nil, List.sum_nil]
          omega


theorem charLen_admissible : tokenMeasureAdmissible charLen := by
  constructor
  · rfl
  · intro a b
    constructor <;> simp [charLen]


/-- Claim C1, counterexample: the claim as stated is false.  Under the
character-count measure (admissible: zero on empty, monotone), text "a b c"
with budget 2 yields the chunk "a b", which is not a single word yet measures
3 > 2: the loop bounds the sum of the word measures, not the measure of the
space-joined chunk. -/

theorem C1_counterexample : ¬ C1_claim := by
  intro h
  have hmem : ("a b".toList) ∈
      split_text_into_chunks charLen ("a b c".toList) 2 := by decide
  have := h charLen charLen_admissible ("a b c".toList) 2 (by decide)
    ("a b".toList) hmem
  exact absurd this (by decide)


theorem nonWSLen_joinSpace (l : List (List Char)) :
    nonWSLen (joinSpace l) = (l.map nonWSLen).sum := by
  induction l with
  | nil => rfl
  | cons w l ih =>
      cases l with
      | nil => simp [joinSpace, nonWSLen]
      | cons v l2 =>
          have hj : joinSpace (w :: v :: l2) = w ++ ' ' :: joinSpace (v :: l2) := rfl
          rw [hj]
          unfold nonWSLen
          rw [List.filter_append]
          have hsp : (isWS ' ' : Bool) = true := rfl
          have hfc : List.filter (fun c => !isWS c) (' ' :: joinSpace (v :: l2)) =
              List.filter (fun c => !isWS c) (joinSpace (v :: l2)) := by
            rw [List.filter_cons]
            simp [hsp]
          rw [hfc]
          simp only [List.length_append, List.map_cons, List.sum_cons]
          unfold nonWSLen at ih
          rw [ih]
          simp


/-- Claim C1, amended: for every text and positive budget, under any token
measure for which the measure of a space-join is at most the sum of the word
measures, every chunk returned by split_text_into_chunks measures at most the
budget, except a chunk that consists of a single word whose own measure
exceeds the budget, which is emitted as its own oversized chunk. -/

theorem C1_amended (μ : List Char → Nat) (T : List Char) (B : Nat)
    (hB : 0 < B) (hsub : ∀ l : List (List Char), μ (joinSpace l) ≤ (l.map μ).sum) :
    ∀ c ∈ split_text_into_chunks μ T B,
      μ c ≤ B ∨ (pySplit c = [c] ∧ B < μ c) := by
  intro c hc
  unfold split_text_into_chunks at hc
  by_cases h : μ T ≤ B
  · rw [if_pos h] at hc
    rw [List.mem_singleton.mp hc]
    exact Or.inl h
  · rw [if_neg h] at hc
    obtain ⟨l, hcl, hlok, hinv⟩ := chunkLoop_mem μ B (pySplit T) [] 0 c
      (pySplit_mem_wordOK T [] (by intro d hd; exact absurd hd (List.not_mem_nil d)))
      (by intro d hd; exact absurd hd (List.not_mem_nil d))
      (Or.inl (by simp)) (by simp) hc
    subst hcl
    rcases hinv with hsum | ⟨w, hl⟩
    · exact Or.inl (le_trans (hsub l) hsum)
    · subst hl
      have hjw : joinSpace [w] = w := rfl
      rw [hjw]
      by_cases hwB : μ w ≤ B
      · exact Or.inl hwB
      · refine Or.inr ⟨?_, by omega⟩
        exact pySplit_word w (hlok w (List.mem_singleton.mpr rfl))


/-- Claim C1, witness: the amended theorem applied to the non-whitespace
character count (join-subadditive), text "aa bb cc", budget 2 and its member
chunk "aa". -/

theorem C1_amended_witness :
    nonWSLen ("aa".toList) ≤ 2 ∨
      (pySplit ("aa".toList) = ["aa".toList] ∧ 2 < nonWSLen ("aa".toList)) :=
  C1_amended nonWSLen ("aa bb cc".toList) 2 (by decide)
    (fun l => le_of_eq (nonWSLen_joinSpace l)) ("aa".toList) (by decide)


/-- Claim C2: for every text, every positive budget and every token measure,
splitting on whitespace the whitespace-join of the chunk list returned by
split_text_into_chunks yields exactly the whitespace-delimited words of the
original text, in original order. -/

theorem C2_roundtrip (μ : List Char → Nat) (T : List Char) (B : Nat)
    (hB : 0 < B) :
    pySplit (joinSpace (split_text_into_chunks μ T B)) = pySplit T := by
  unfold split_text_into_chunks
  by_cases h : μ T ≤ B
  · rw [if_pos h]
    rfl
  · rw [if_neg h]
    rw [pySplit_joinSpace_flatten]
    rw [chunkLoop_flatten μ B (pySplit T) [] 0
      (by intro d hd; exact absurd hd (List.not_mem_nil d))
      (pySplit_mem_wordOK T [] (by intro d hd; exact absurd hd (List.not_mem_nil d)))]
    rfl


/-- Claim C2, witness: the round-trip theorem at the character measure,
text "a b c" and budget 1. -/

theorem C2_witness :
    pySplit (joinSpace (split_text_into_chunks charLen ("a b c".toList) 1)) =
      pySplit ("a b c".toList) :=
  C2_roundtrip charLen ("a b c".toList) 1 (by decide)


/-- Claim C4: whenever the text's measured size is within the budget,
split_text_into_chunks returns exactly the one-element list holding the text
verbatim; in particular the empty string (measure zero under any admissible
measure) yields a single empty chunk, as the witness shows. -/

theorem C4_within_budget (μ : List Char → Nat) (T : List Char) (B : Nat)
    (hB : 0 < B) (hT : μ T ≤ B) :
    split_text_into_chunks μ T B = [T] := by
  unfold split_text_into_chunks
  rw [if_pos hT]


/-- Claim C4, witness: the empty string with budget 1 under the character
measure returns the single empty chunk. -/

theorem C4_witness : split_text_into_chunks charLen [] 1 = [[]] :=
  C4_within_budget charLen [] 1 (by decide) (by decide)


/-- Claim C9: when the whole text exceeds the budget and already its first
word exceeds the budget, the first chunk returned is the empty string: the
loop closes the empty current chunk before starting the oversized word's own
chunk. -/

theorem C9_leading_empty_chunk (μ : List Char → Nat) (T : List Char) (B : Nat)
    (hB : 0 < B) (hT : B < μ T) (w : List Char) (ws : List (List Char))
    (hw : pySplit T = w :: ws) (hwB : B < μ w) :
    (split_text_into_chunks μ T B).head? = some [] := by
  unfold split_text_into_chunks
  rw [if_neg (by omega), hw, chunkLoop_cons, if_pos (by omega)]
  rfl


/-- Claim C9, witness: text "abc" with budget 2 under the character measure
returns the empty chunk first. -/

theorem C9_witness :
    (split_text_into_chunks charLen ("abc".toList) 2).head? = some [] :=
  C9_leading_empty_chunk charLen ("abc".toList) 2 (by decide) (by decide)
    ("abc".toList) [] (by decide) (by decide)

end Scrape
namespace Scrape

/-! Theorems: the semchunk budget computation (claim C6). -/

theorem natLog2F_spec : ∀ (f n : Nat), 1 ≤ n → n < 2 ^ f →
    2 ^ natLog2F f n ≤ n ∧ n < 2 ^ (natLog2F f n + 1) := by
  intro f
  induction f with
  | zero => intro n h1 h2; exact absurd h2 (by omega)
  | succ f ih =>
      intro n h1 h2
      have hstep : natLog2F (f + 1) n = if n ≤ 1 then 0 else natLog2F f (n / 2) + 1 := rfl
      rw [hstep]
      by_cases hsmall : n ≤ 1
      · simp only [if_pos hsmall]
        constructor
        · simpa using h1
        · omega
      · simp only [if_neg hsmall]
        have hn2 : 2 ≤ n := by omega
        have hdiv1 : 1 ≤ n / 2 := by omega
        have hdiv2 : n / 2 < 2 ^ f := by
          have h2f : 2 ^ (f + 1) = 2 ^ f * 2 := by ring
          omega
        obtain ⟨hl, hr⟩ := ih (n / 2) hdiv1 hdiv2
        set k := natLog2F f (n / 2) with hk
        constructor
        · have : 2 ^ (k + 1) = 2 ^ k * 2 := by ring
          omega
        · have : 2 ^ (k + 1 + 1) = 2 ^ (k + 1) * 2 := by ring
          omega

theorem natLog2_spec (n : Nat) (h1 : 1 ≤ n) (h2 : n < 2 ^ 1100) :
    2 ^ natLog2 n ≤ n ∧ n < 2 ^ (natLog2 n + 1) :=
  natLog2F_spec 1100 n h1 h2

theorem roundMant_err (m s : Nat) :
    |(roundMant m s : ℚ) - (m : ℚ) / 2 ^ s| ≤ 1 / 2 := by
  have hdn : 0 < (2 : Nat) ^ s := Nat.pos_pow_of_pos s (by omega)
  have hd : (0 : ℚ) < (2 : ℚ) ^ s := by positivity
  have hmod := Nat.div_add_mod m (2 ^ s)
  have hlt := Nat.mod_lt m hdn
  set t := m / 2 ^ s with ht
  set r := m % 2 ^ s with hr
  have hmq : (m : ℚ) = 2 ^ s * (t : ℚ) + (r : ℚ) := by exact_mod_cast hmod.symm
  have hkey : (m : ℚ) / 2 ^ s - (t : ℚ) = (r : ℚ) / 2 ^ s := by
    field_simp
    linarith [hmq]
  have hrq : (r : ℚ) < 2 ^ s := by exact_mod_cast hlt
  have hrq0 : (0 : ℚ) ≤ (r : ℚ) := by positivity
  have hrm : roundMant m s =
      if 2 * r < 2 ^ s then t else if 2 ^ s < 2 * r then t + 1
      else if t % 2 = 0 then t else t + 1 := rfl
  rw [hrm]
  split_ifs with h1 h2 h3
  · -- round down, 2r < d
    have h1q : 2 * (r : ℚ) < 2 ^ s := by exact_mod_cast h1
    rw [abs_le]
    constructor
    · have : (r : ℚ) / 2 ^ s ≤ 1 / 2 := by
        rw [div_le_div_iff₀ hd (by norm_num : (0:ℚ) < 2)]
        linarith
      linarith [hkey]
    · have : (0 : ℚ) ≤ (r : ℚ) / 2 ^ s := by positivity
      linarith [hkey]
  · -- round up, 2r > d
    have h2q : (2 : ℚ) ^ s < 2 * (r : ℚ) := by exact_mod_cast h2
    rw [abs_le]
    push_cast
    constructor
    · have : (r : ℚ) / 2 ^ s < 1 := by rw [div_lt_one hd]; linarith
      linarith [hkey]
    · have : 1 / 2 ≤ (r : ℚ) / 2 ^ s := by
        rw [div_le_div_iff₀ (by norm_num : (0:ℚ) < 2) hd]
        linarith
      linarith [hkey]
  · -- tie, t even: round down
    have h3q : 2 * (r : ℚ) = 2 ^ s := by
      have : 2 * r = 2 ^ s := by omega
      exact_mod_cast this
    have : (r : ℚ) / 2 ^ s = 1 / 2 := by
      rw [div_eq_div_iff hd.ne.symm (by norm_num : (2:ℚ) ≠ 0)]
      linarith
    rw [abs_le]
    constructor <;> linarith [hkey]
  · -- tie, t odd: round up
    have h3q : 2 * (r : ℚ) = 2 ^ s := by
      have : 2 * r = 2 ^ s := by omega
      exact_mod_cast this
    have : (r : ℚ) / 2 ^ s = 1 / 2 := by
      rw [div_eq_div_iff hd.ne.symm (by norm_num : (2:ℚ) ≠ 0)]
      linarith
    rw [abs_le]
    push_cast
    constructor <;> linarith [hkey]

theorem roundMant_bounds (m s : Nat) :
    m / 2 ^ s ≤ roundMant m s ∧ roundMant m s ≤ m / 2 ^ s + 1 := by
  have hrm : roundMant m s =
      if 2 * (m % 2 ^ s) < 2 ^ s then m / 2 ^ s
      else if 2 ^ s < 2 * (m % 2 ^ s) then m / 2 ^ s + 1
      else if (m / 2 ^ s) % 2 = 0 then m / 2 ^ s else m / 2 ^ s + 1 := rfl
  rw [hrm]
  split_ifs <;> omega

theorem dval_nonneg (x : Dy) : 0 ≤ dval x := by
  unfold dval
  positivity

theorem dval_pair_mul (x y : Dy) :
    dval (x.1 * y.1, x.2 + y.2) = dval x * dval y := by
  unfold dval
  push_cast
  rw [zpow_add₀ (by norm_num : (2:ℚ) ≠ 0)]
  ring

theorem natLog2_zero : natLog2 0 = 0 := rfl

theorem roundB64_mant_le (x : Dy) (hx : x.1 < 2 ^ 1100) : (roundB64 x).1 ≤ 2 ^ 53 := by
  unfold roundB64
  by_cases hc : natLog2 x.1 ≤ 52
  · simp only [if_pos hc]
    by_cases h0 : x.1 = 0
    · omega
    · obtain ⟨_, hub⟩ := natLog2_spec x.1 (by omega) hx
      have hmono : 2 ^ (natLog2 x.1 + 1) ≤ 2 ^ 53 :=
        Nat.pow_le_pow_right (by omega) (by omega)
      omega
  · simp only [if_neg hc]
    have h0 : x.1 ≠ 0 := by
      intro h
      rw [h, natLog2_zero] at hc
      omega
    obtain ⟨hlb, hub⟩ := natLog2_spec x.1 (by omega) hx
    have hdivlt : x.1 / 2 ^ (natLog2 x.1 - 52) < 2 ^ 53 := by
      rw [Nat.div_lt_iff_lt_mul (Nat.pos_pow_of_pos _ (by omega))]
      calc x.1 < 2 ^ (natLog2 x.1 + 1) := hub
        _ = 2 ^ 53 * 2 ^ (natLog2 x.1 - 52) := by
            rw [← Nat.pow_add]
            congr 1
            omega
    have hb := roundMant_bounds x.1 (natLog2 x.1 - 52)
    omega

theorem roundB64_eq_small (x : Dy) (h : natLog2 x.1 ≤ 52) : roundB64 x = x := by
  unfold roundB64
  simp [h]

theorem roundB64_eq_big (x : Dy) (h : ¬ natLog2 x.1 ≤ 52) :
    roundB64 x = (roundMant x.1 (natLog2 x.1 - 52), x.2 + (((natLog2 x.1 : ℤ)) - 52)) := by
  unfold roundB64
  simp only [if_neg h]

theorem two_zpow_mul (a b : ℤ) : ((2:ℚ) ^ a) * 2 ^ b = 2 ^ (a + b) :=
  (zpow_add₀ (by norm_num : (2:ℚ) ≠ 0) a b).symm

theorem roundMant_scaled_err (m s L : ℕ) (e : ℤ) (hlb : 2 ^ L ≤ m)
    (hs : (s : ℤ) = (L : ℤ) - 52) :
    |(roundMant m s : ℚ) * 2 ^ (e + (s : ℤ)) - (m : ℚ) * 2 ^ e| ≤
      ((m : ℚ) * 2 ^ e) / 2 ^ (53 : ℕ) := by
  have h2ne : (2 : ℚ) ≠ 0 := by norm_num
  have h2s : ((2 : ℚ) ^ ((s : ℕ) : ℤ)) = (2 : ℚ) ^ (s : ℕ) := zpow_natCast 2 s
  have h2spos : (0 : ℚ) < 2 ^ (s : ℕ) := by positivity
  have hZpos : (0 : ℚ) < 2 ^ (e + (s : ℤ)) := by positivity
  have hfact : (m : ℚ) * 2 ^ e = ((m : ℚ) / 2 ^ (s : ℕ)) * 2 ^ (e + (s : ℤ)) := by
    rw [← two_zpow_mul e (s : ℤ), h2s]
    field_simp
    ring
  calc |(roundMant m s : ℚ) * 2 ^ (e + (s : ℤ)) - (m : ℚ) * 2 ^ e|
      = |(roundMant m s : ℚ) - (m : ℚ) / 2 ^ (s : ℕ)| * 2 ^ (e + (s : ℤ)) := by
        rw [hfact, ← sub_mul, abs_mul, abs_of_pos hZpos]
    _ ≤ (1 / 2) * 2 ^ (e + (s : ℤ)) :=
        mul_le_mul_of_nonneg_right (roundMant_err m s) (le_of_lt hZpos)
    _ = 2 ^ (e + (s : ℤ) - 1) := by
        rw [zpow_sub₀ h2ne]
        ring
    _ = ((2 : ℚ) ^ (L : ℤ) * 2 ^ e) / 2 ^ (53 : ℕ) := by
        rw [two_zpow_mul, ← zpow_natCast (2 : ℚ) 53, ← zpow_sub₀ h2ne]
        congr 1
        omega
    _ ≤ ((m : ℚ) * 2 ^ e) / 2 ^ (53 : ℕ) := by
        have hmlb : ((2 : ℚ) ^ (L : ℤ)) ≤ (m : ℚ) := by
          rw [zpow_natCast]
          exact_mod_cast hlb
        have hepos : (0 : ℚ) < 2 ^ e := by positivity
        have hmlb2 : ((2 : ℚ) ^ (L : ℤ)) * 2 ^ e ≤ (m : ℚ) * 2 ^ e :=
          mul_le_mul_of_nonneg_right hmlb (le_of_lt hepos)
        gcongr

theorem roundB64_err (x : Dy) (hx : x.1 < 2 ^ 1100) :
    |dval (roundB64 x) - dval x| ≤ dval x / 2 ^ (53 : ℕ) := by
  by_cases hc : natLog2 x.1 ≤ 52
  · rw [roundB64_eq_small x hc, sub_self, abs_zero]
    have := dval_nonneg x
    positivity
  · have h0 : x.1 ≠ 0 := by
      intro h
      rw [h, natLog2_zero] at hc
      omega
    obtain ⟨hlb, _⟩ := natLog2_spec x.1 (by omega) hx
    rw [roundB64_eq_big x hc]
    unfold dval
    have hcast : x.2 + ((natLog2 x.1 : ℤ) - 52) = x.2 + ((natLog2 x.1 - 52 : ℕ) : ℤ) := by
      omega
    rw [hcast]
    exact roundMant_scaled_err x.1 (natLog2 x.1 - 52) (natLog2 x.1) x.2 hlb (by omega)

theorem pyTrunc_bounds (x : Dy) :
    (pyTrunc x : ℚ) ≤ dval x ∧ dval x < (pyTrunc x : ℚ) + 1 := by
  unfold pyTrunc dval
  split_ifs with h
  · have he : ((2 : ℚ) ^ x.2) = ((2 : ℚ) ^ x.2.toNat) := by
      rw [← zpow_natCast (2:ℚ) x.2.toNat]
      congr 1
      omega
    rw [he]
    constructor
    · apply le_of_eq
      push_cast
      ring
    · have : ((x.1 * 2 ^ x.2.toNat : ℕ) : ℚ) = (x.1 : ℚ) * 2 ^ x.2.toNat := by
        push_cast
        ring
      rw [this]
      linarith
  · have h2q : ((2 : ℚ) ^ x.2) = ((2 : ℚ) ^ ((-x.2).toNat : ℕ))⁻¹ := by
      rw [← zpow_natCast (2:ℚ) ((-x.2).toNat), Int.toNat_of_nonneg (by omega : 0 ≤ -x.2),
        ← zpow_neg, neg_neg]
    have hpos : (0 : ℚ) < (2 : ℚ) ^ ((-x.2).toNat : ℕ) := by positivity
    rw [h2q]
    constructor
    · rw [← div_eq_mul_inv, le_div_iff₀ hpos]
      have hnat : x.1 / 2 ^ ((-x.2).toNat : ℕ) * 2 ^ ((-x.2).toNat : ℕ) ≤ x.1 :=
        Nat.div_mul_le_self _ _
      exact_mod_cast hnat
    · rw [← div_eq_mul_inv, div_lt_iff₀ hpos]
      have hpn : 0 < 2 ^ ((-x.2).toNat : ℕ) := Nat.pos_pow_of_pos _ (by omega)
      have h1 := Nat.div_add_mod x.1 (2 ^ ((-x.2).toNat : ℕ))
      have h2 := Nat.mod_lt x.1 hpn
      have h3 : x.1 / 2 ^ ((-x.2).toNat : ℕ) * 2 ^ ((-x.2).toNat : ℕ) =
          2 ^ ((-x.2).toNat : ℕ) * (x.1 / 2 ^ ((-x.2).toNat : ℕ)) := Nat.mul_comm _ _
      have hnat : x.1 < (x.1 / 2 ^ ((-x.2).toNat : ℕ) + 1) * 2 ^ ((-x.2).toNat : ℕ) := by
        rw [Nat.add_mul, Nat.one_mul, h3]
        omega
      exact_mod_cast hnat

theorem lit09_val : dval lit09 = 8106479329266893 / 2 ^ 53 := by
  unfold dval lit09
  rw [zpow_neg]
  norm_num

theorem lit09_close : |dval lit09 - 9 / 10| ≤ 1 / 2 ^ 54 := by
  rw [lit09_val, abs_le]
  constructor <;> norm_num

theorem lit09_mem_unit : 0 < dval lit09 ∧ dval lit09 ≤ 1 := by
  rw [lit09_val]
  constructor <;> norm_num

theorem dval_ofNat (n : ℕ) : dval (n, (0 : ℤ)) = (n : ℚ) := by
  unfold dval
  simp

/-- Claim C6, counterexample: the claim as stated is false.  At
chunk_size = 2 ^ 53 the binary64 product 2 ^ 53 * 0.9 is exactly
8106479329266893 (the double 0.9 exceeds 9/10 by about 2 ^ -54 and the
product is exactly representable), so the code's budget is one more than
min(chunk_size, floor(chunk_size * 9 / 10)) = 8106479329266892. -/
theorem C6_counterexample : ¬ C6_claim := by
  intro h
  have hc := h (2 ^ 53) (by positivity)
  have hne : semchunkEffectiveChunkSize (2 ^ 53) ≠ min (2 ^ 53) (9 * 2 ^ 53 / 10) := by
    decide
  exact hne hc

set_option maxRecDepth 10000 in
/-- Claim C6, amended: for every positive chunk_size in the binary64 range,
the effective per-chunk budget handed to the delegated splitter is
min(chunk_size, int(chunk_size * 0.9)) computed in binary64 floating point;
this lies within chunk_size / 2 ^ 50 + 1 of the exact 10 percent reduction
9 * chunk_size / 10, but need not equal floor(chunk_size * 9 / 10) exactly. -/
theorem C6_amended (B : ℕ) (hB : 0 < B) (hrange : B < 2 ^ 1024) :
    (semchunkEffectiveChunkSize B : ℚ) ≤ 9 * (B : ℚ) / 10 + ((B : ℚ) / 2 ^ 50 + 1) ∧
    9 * (B : ℚ) / 10 - ((B : ℚ) / 2 ^ 50 + 1) ≤ (semchunkEffectiveChunkSize B : ℚ) := by
  have hx1 : (1 : ℚ) ≤ (B : ℚ) := by exact_mod_cast hB
  have hxpos : (0 : ℚ) < (B : ℚ) := by linarith
  have hB1100 : B < 2 ^ 1100 := lt_trans hrange (by norm_num)
  -- step 1: int-to-float conversion error
  have h1 : |dval (pyFloatOfNat B) - (B : ℚ)| ≤ (B : ℚ) / 2 ^ 53 := by
    have h := roundB64_err (B, (0 : ℤ)) hB1100
    rw [dval_ofNat] at h
    exact h
  have ha_nonneg : 0 ≤ dval (pyFloatOfNat B) := dval_nonneg _
  have ha_ub : dval (pyFloatOfNat B) ≤ 2 * (B : ℚ) := by
    rw [abs_le] at h1
    have hd : (B : ℚ) / 2 ^ 53 ≤ (B : ℚ) :=
      div_le_self (le_of_lt hxpos) (by norm_num : (1:ℚ) ≤ 2 ^ 53)
    linarith
  have ha_mant : (pyFloatOfNat B).1 ≤ 2 ^ 53 := roundB64_mant_le (B, (0 : ℤ)) hB1100
  -- step 2: binary64 multiplication error
  have hpm : (pyFloatOfNat B).1 * lit09.1 < 2 ^ 1100 := by
    have hle : (pyFloatOfNat B).1 * lit09.1 ≤ 2 ^ 53 * lit09.1 :=
      Nat.mul_le_mul_right _ ha_mant
    have : (2 : ℕ) ^ 53 * lit09.1 < 2 ^ 1100 := by decide
    omega
  have h2 : |dval (pyMulB64 (pyFloatOfNat B) lit09) -
      dval (pyFloatOfNat B) * dval lit09| ≤
      (dval (pyFloatOfNat B) * dval lit09) / 2 ^ 53 := by
    have h := roundB64_err ((pyFloatOfNat B).1 * lit09.1,
      (pyFloatOfNat B).2 + lit09.2) hpm
    rw [dval_pair_mul (pyFloatOfNat B) lit09] at h
    exact h
  obtain ⟨hd0, hd1⟩ := lit09_mem_unit
  have hdc := lit09_close
  -- combined error of the product against (9/10) * B
  have htri : |dval (pyMulB64 (pyFloatOfNat B) lit09) - 9 * (B : ℚ) / 10| ≤
      (B : ℚ) / 2 ^ 51 := by
    have e1 : |dval (pyFloatOfNat B) * dval lit09 - (B : ℚ) * dval lit09| ≤
        (B : ℚ) / 2 ^ 53 := by
      rw [← sub_mul, abs_mul, abs_of_pos hd0]
      calc |dval (pyFloatOfNat B) - (B : ℚ)| * dval lit09
          ≤ ((B : ℚ) / 2 ^ 53) * 1 := by
            apply mul_le_mul h1 hd1 (le_of_lt hd0) (by positivity)
        _ = (B : ℚ) / 2 ^ 53 := by ring
    have e2 : |(B : ℚ) * dval lit09 - 9 * (B : ℚ) / 10| ≤ (B : ℚ) / 2 ^ 54 := by
      have : (B : ℚ) * dval lit09 - 9 * (B : ℚ) / 10 =
          (B : ℚ) * (dval lit09 - 9 / 10) := by ring
      rw [this, abs_mul, abs_of_pos hxpos]
      calc (B : ℚ) * |dval lit09 - 9 / 10| ≤ (B : ℚ) * (1 / 2 ^ 54) := by
            apply mul_le_mul_of_nonneg_left hdc (le_of_lt hxpos)
        _ = (B : ℚ) / 2 ^ 54 := by ring
    have e3 : (dval (pyFloatOfNat B) * dval lit09) / 2 ^ 53 ≤
        2 * (B : ℚ) / 2 ^ 53 := by
      have hub : dval (pyFloatOfNat B) * dval lit09 ≤ 2 * (B : ℚ) := by
        calc dval (pyFloatOfNat B) * dval lit09 ≤ 2 * (B : ℚ) * 1 := by
              apply mul_le_mul ha_ub hd1 (le_of_lt hd0) (by positivity)
          _ = 2 * (B : ℚ) := by ring
      gcongr
    have tchain := abs_sub_le (dval (pyMulB64 (pyFloatOfNat B) lit09))
      (dval (pyFloatOfNat B) * dval lit09) (9 * (B : ℚ) / 10)
    have tchain2 := abs_sub_le (dval (pyFloatOfNat B) * dval lit09)
      ((B : ℚ) * dval lit09) (9 * (B : ℚ) / 10)
    have hnum : 2 * (B : ℚ) / 2 ^ 53 + ((B : ℚ) / 2 ^ 53 + (B : ℚ) / 2 ^ 54) ≤
        (B : ℚ) / 2 ^ 51 := by
      have hc1 : 2 * (B : ℚ) / 2 ^ 53 + ((B : ℚ) / 2 ^ 53 + (B : ℚ) / 2 ^ 54) =
          (B : ℚ) * (7 / 2 ^ 54) := by ring
      have hc2 : (B : ℚ) / 2 ^ 51 = (B : ℚ) * (8 / 2 ^ 54) := by ring
      rw [hc1, hc2]
      exact mul_le_mul_of_nonneg_left (by norm_num) (le_of_lt hxpos)
    linarith [h2, e1, e2, e3, tchain, tchain2]
  -- step 3: truncation and min
  obtain ⟨htl, htu⟩ := pyTrunc_bounds (pyMulB64 (pyFloatOfNat B) lit09)
  rw [abs_le] at htri
  have heff : semchunkEffectiveChunkSize B =
      min B (pyTrunc (pyMulB64 (pyFloatOfNat B) lit09)) := rfl
  rw [heff]
  have hcast : ((min B (pyTrunc (pyMulB64 (pyFloatOfNat B) lit09)) : ℕ) : ℚ) =
      min (B : ℚ) ((pyTrunc (pyMulB64 (pyFloatOfNat B) lit09)) : ℚ) := by
    push_cast
    rfl
  rw [hcast]
  have hb50 : (B : ℚ) / 2 ^ 51 ≤ (B : ℚ) / 2 ^ 50 := by
    have hc1 : (B : ℚ) / 2 ^ 51 = (B : ℚ) * (1 / 2 ^ 51) := by ring
    have hc2 : (B : ℚ) / 2 ^ 50 = (B : ℚ) * (2 / 2 ^ 51) := by ring
    rw [hc1, hc2]
    exact mul_le_mul_of_nonneg_left (by norm_num) (le_of_lt hxpos)
  constructor
  · calc min (B : ℚ) ((pyTrunc (pyMulB64 (pyFloatOfNat B) lit09)) : ℚ) ≤
        ((pyTrunc (pyMulB64 (pyFloatOfNat B) lit09)) : ℚ) := min_le_right _ _
      _ ≤ dval (pyMulB64 (pyFloatOfNat B) lit09) := htl
      _ ≤ 9 * (B : ℚ) / 10 + (B : ℚ) / 2 ^ 51 := by linarith
      _ ≤ 9 * (B : ℚ) / 10 + ((B : ℚ) / 2 ^ 50 + 1) := by linarith
  · apply le_min
    · linarith [div_nonneg (le_of_lt hxpos) (le_of_lt (by positivity : (0:ℚ) < (2:ℚ)^50))]
    · linarith


set_option maxRecDepth 10000 in
/-- Claim C6, witness: the amended bound applied at chunk_size = 10, where
the effective budget is 9. -/
theorem C6_amended_witness :
    (semchunkEffectiveChunkSize 10 : ℚ) ≤
        9 * ((10 : ℕ) : ℚ) / 10 + (((10 : ℕ) : ℚ) / 2 ^ 50 + 1) ∧
      9 * ((10 : ℕ) : ℚ) / 10 - (((10 : ℕ) : ℚ) / 2 ^ 50 + 1) ≤
        (semchunkEffectiveChunkSize 10 : ℚ) :=
  C6_amended 10 (by decide) (by decide)

end Scrape
namespace Scrape

/-! Theorems: graph construction and run (claims C3, C8, C10). -/

/-- Claim C3: in the graph built by SmartScraperMultiConcatGraph._create_graph
the ConditionalNode's configuration names the results key with condition
string len(results) greater than 2; its two outgoing edges target
MergeAnswersNode (true) and ConcatNode (false); a results list of length 3
routes to MergeAnswersNode, one of length 2 to ConcatNode, and exactly one of
the two successors is chosen per invocation. -/

theorem C3_conditional_routing :
    conditional_node_config.key_name = "results" ∧
    conditional_node_config.condition = "len(results) > 2" ∧
    outgoingEdges smartScraperMultiConcat_edges "ConditionalNode" =
      ["MergeAnswersNode", "ConcatNode"] ∧
    (∀ a b c : String,
      routeConditional smartScraperMultiConcat_edges "ConditionalNode"
        (condLenResultsGt2 [a, b, c]) = some "MergeAnswersNode") ∧
    (∀ a b : String,
      routeConditional smartScraperMultiConcat_edges "ConditionalNode"
        (condLenResultsGt2 [a, b]) = some "ConcatNode") ∧
    (∀ rs : List String,
      (routeConditional smartScraperMultiConcat_edges "ConditionalNode"
          (condLenResultsGt2 rs) = some "MergeAnswersNode" ∧
        routeConditional smartScraperMultiConcat_edges "ConditionalNode"
          (condLenResultsGt2 rs) ≠ some "ConcatNode") ∨
      (routeConditional smartScraperMultiConcat_edges "ConditionalNode"
          (condLenResultsGt2 rs) = some "ConcatNode" ∧
        routeConditional smartScraperMultiConcat_edges "ConditionalNode"
          (condLenResultsGt2 rs) ≠ some "MergeAnswersNode")) := by
  refine ⟨rfl, rfl, by decide, fun a b c => rfl, fun a b => rfl, ?_⟩
  intro rs
  cases h : condLenResultsGt2 rs
  · right
    exact ⟨rfl, by decide⟩
  · left
    exact ⟨rfl, by decide⟩


/-- Claim C8: the GraphIteratorNode of DocumentScraperMultiGraph declares
required inputs user_prompt and jsons, while run() seeds the initial state
with exactly the keys user_prompt and xmls, so the declared required key
jsons is never present in the initial state. -/

theorem C8_missing_input_key :
    parseInputKeys documentScraperMulti_iterator_input = ["user_prompt", "jsons"] ∧
    (∀ (prompt : String) (source : List String),
      (documentScraperMulti_run_inputs prompt source).map Prod.fst =
        ["user_prompt", "xmls"]) ∧
    (∀ (prompt : String) (source : List String),
      "jsons" ∉ (documentScraperMulti_run_inputs prompt source).map Prod.fst) := by
  refine ⟨by decide, fun _ _ => rfl, ?_⟩
  intro prompt source h
  have : ("jsons" : String) ∈ ["user_prompt", "xmls"] := by
    have he : (documentScraperMulti_run_inputs prompt source).map Prod.fst =
        ["user_prompt", "xmls"] := rfl
    rw [← he]
    exact h
  revert this
  decide


/-- Claim C10: for any final state of either graph, run() returns the value
of the answer key when present and the fixed string "No answer found." when
absent; the embedding is a total function, so a missing key never raises. -/

theorem C10_run_answer (fs : List (String × StateVal)) :
    (∀ v : StateVal, stateLookup fs "answer" = some v →
      smartScraperMultiConcat_run_answer fs = v ∧
      documentScraperMulti_run_answer fs = v) ∧
    (stateLookup fs "answer" = none →
      smartScraperMultiConcat_run_answer fs = .str "No answer found." ∧
      documentScraperMulti_run_answer fs = .str "No answer found.") := by
  constructor
  · intro v hv
    constructor <;>
      simp [smartScraperMultiConcat_run_answer, documentScraperMulti_run_answer,
        pyDictGet, hv]
  · intro hnone
    constructor <;>
      simp [smartScraperMultiConcat_run_answer, documentScraperMulti_run_answer,
        pyDictGet, hnone]


/-- Claim C10, witness: the theorem applied at a state carrying an answer
and at the empty state. -/

theorem C10_witness :
    (smartScraperMultiConcat_run_answer [("answer", .str "42")] = .str "42" ∧
      documentScraperMulti_run_answer [("answer", .str "42")] = .str "42") ∧
    (smartScraperMultiConcat_run_answer [] = .str "No answer found." ∧
      documentScraperMulti_run_answer [] = .str "No answer found.") :=
  ⟨(C10_run_answer [("answer", .str "42")]).1 (.str "42") rfl,
   (C10_run_answer []).2 rfl⟩


/-! Theorems: cleanup_html (claim C5). -/

theorem cleanup_html_eq (parse : String → SoupModel)
    (urljoin : String → String → String) (minify : String → String)
    (html_content base_url : String) :
    cleanup_html parse urljoin minify html_content base_url =
      match (parse html_content).body with
      | some body_content =>
          .ok ((parse html_content).title.getD "",
            minify body_content,
            (parse html_content).hrefs.map (fun href => urljoin base_url href),
            (parse html_content).img_srcs.map (fun src =>
              if strContains src "http" = false then urljoin base_url src else src),
            (parse html_content).script_content)
      | none => .error (cleanupErrMsg html_content) := rfl


/-- Claim C5: cleanup_html raises if and only if the parsed document has no
body element; when a body is present it returns the title text (empty if no
title), the minified body, the absolutized link URLs, the image URLs and the
script content — it never silently returns empty output for a missing
body. -/

theorem C5_cleanup_html_error_iff (parse : String → SoupModel)
    (urljoin : String → String → String) (minify : String → String)
    (html_content base_url : String) :
    ((∃ e, cleanup_html parse urljoin minify html_content base_url = .error e) ↔
      (parse html_content).body = none) ∧
    (∀ b, (parse html_content).body = some b →
      cleanup_html parse urljoin minify html_content base_url =
        .ok ((parse html_content).title.getD "",
          minify b,
          (parse html_content).hrefs.map (fun href => urljoin base_url href),
          (parse html_content).img_srcs.map (fun src =>
            if strContains src "http" = false then urljoin base_url src else src),
          (parse html_content).script_content)) := by
  constructor
  · constructor
    · rintro ⟨e, he⟩
      rw [cleanup_html_eq] at he
      cases hb : (parse html_content).body with
      | none => rfl
      | some b =>
          rw [hb] at he
          exact absurd he (by simp)
    · intro hb
      refine ⟨cleanupErrMsg html_content, ?_⟩
      rw [cleanup_html_eq, hb]
  · intro b hb
    rw [cleanup_html_eq, hb]


/-- Claim C5, witness: the body-present branch evaluated on a concrete soup
with one relative link, one relative and one absolute image. -/

theorem C5_witness :
    cleanup_html (fun _ => soupExample) (fun b s => b ++ s) (fun s => s)
      "<html>" "http://u/" =
      .ok ("T", "<p>x</p>", ["http://u/a"], ["http://u/i.png", "http://x/i.png"], "s") := by
  exact (C5_cleanup_html_error_iff (fun _ => soupExample) (fun b s => b ++ s)
    (fun s => s) "<html>" "http://u/").2 "<p>x</p>" rfl


/-! Theorems: configuration deep-copying (claim C7). -/

theorem updateMem_hit (mem : Nat → Cell) (a : Nat) (c : Cell) :
    updateMem mem a c a = c := by
  unfold updateMem
  simp

theorem updateMem_miss (mem : Nat → Cell) (a b : Nat) (c : Cell) (h : b ≠ a) :
    updateMem mem a c b = mem b := by
  unfold updateMem
  simp [h]


theorem dcKidsGo_inv (rec : Nat → (Nat → Cell) → Nat → Option (Nat × (Nat → Cell) × Nat))
    (hrec : ∀ a out n a2 out2 n2, rec a out n = some (a2, out2, n2) →
      CopyInv a2 out out2 n n2) :
    ∀ (kvs : List (String × Nat)) (out : Nat → Cell) (n : Nat) kvs2 out2 n2,
      dcKidsGo rec kvs out n = some (kvs2, out2, n2) →
      n ≤ n2 ∧
      (∀ b, b < n ∨ n2 ≤ b → out2 b = out b) ∧
      (∀ kv ∈ kvs2, n ≤ kv.2 ∧ kv.2 < n2) ∧
      (∀ b, n ≤ b → b < n2 → ∀ r ∈ cellRefs (out2 b), n ≤ r ∧ r < n2) := by
  intro kvs
  induction kvs with
  | nil =>
      intro out n kvs2 out2 n2 h
      unfold dcKidsGo at h
      simp only [Option.some.injEq, Prod.mk.injEq] at h
      obtain ⟨h1, h2, h3⟩ := h
      subst h1
      subst h2
      subst h3
      refine ⟨le_refl n, fun b _ => rfl, ?_, ?_⟩
      · intro kv hkv
        exact absurd hkv (List.not_mem_nil kv)
      · intro b hb1 hb2
        omega
  | cons kv rest ih =>
      intro out n kvs2 out2 n2 h
      obtain ⟨k, a⟩ := kv
      unfold dcKidsGo at h
      split at h
      · exact absurd h (by simp)
      · rename_i a2 out1 n1 hr
        split at h
        · exact absurd h (by simp)
        · rename_i kvs1 outk nk hk
          simp only [Option.some.injEq, Prod.mk.injEq] at h
          obtain ⟨h1, h2, h3⟩ := h
          subst h1
          subst h2
          subst h3
          obtain ⟨hc1, hc2, hc3, hc4, hc5⟩ := hrec a out n a2 out1 n1 hr
          obtain ⟨hk1, hk2, hk3, hk4⟩ := ih out1 n1 kvs1 outk nk hk
          refine ⟨by omega, ?_, ?_, ?_⟩
          · intro b hb
            rw [hk2 b (by omega), hc4 b (by omega)]
          · intro kv2 hkv2
            rcases List.mem_cons.mp hkv2 with h1 | h2
            · subst h1
              constructor <;> omega
            · have := hk3 kv2 h2
              constructor <;> omega
          · intro b hb1 hb2 r hr2
            by_cases hbn : b < n1
            · rw [hk2 b (by omega)] at hr2
              have := hc5 b (by omega) (by omega) r hr2
              constructor <;> omega
            · have := hk4 b (by omega) (by omega) r hr2
              constructor <;> omega

theorem dcAddr_inv : ∀ (f : Nat) (src : Nat → Cell) (a : Nat) (out : Nat → Cell)
    (n a2 : Nat) (out2 : Nat → Cell) (n2 : Nat),
    dcAddr f src a out n = some (a2, out2, n2) → CopyInv a2 out out2 n n2 := by
  intro f
  induction f with
  | zero =>
      intro src a out n a2 out2 n2 h
      exact absurd h (by simp [dcAddr])
  | succ f ih =>
      intro src a out n a2 out2 n2 h
      unfold dcAddr at h
      split at h
      · -- atom cell
        rename_i s hs
        simp only [Option.some.injEq, Prod.mk.injEq] at h
        obtain ⟨h1, h2, h3⟩ := h
        subst h1
        subst h2
        subst h3
        refine ⟨by omega, by omega, by omega, ?_, ?_⟩
        · intro b hb
          exact updateMem_miss out n b (.atom s) (by omega)
        · intro b hb1 hb2 r hr
          have hbe : b = n := by omega
          subst hbe
          rw [updateMem_hit] at hr
          exact absurd hr (List.not_mem_nil r)
      · -- node cell
        rename_i kvs hs
        split at h
        · exact absurd h (by simp)
        · rename_i kvs2 outk nk hk
          simp only [Option.some.injEq, Prod.mk.injEq] at h
          obtain ⟨h1, h2, h3⟩ := h
          subst h1
          subst h2
          subst h3
          obtain ⟨hk1, hk2, hk3, hk4⟩ :=
            dcKidsGo_inv (dcAddr f src)
              (fun a out n a2 out2 n2 h => ih src a out n a2 out2 n2 h)
              kvs out n kvs2 outk nk hk
          refine ⟨by omega, by omega, by omega, ?_, ?_⟩
          · intro b hb
            rw [updateMem_miss outk nk b (.node kvs2) (by omega)]
            exact hk2 b (by omega)
          · intro b hb1 hb2 r hr
            by_cases hbe : b = nk
            · subst hbe
              rw [updateMem_hit] at hr
              unfold cellRefs at hr
              obtain ⟨kv, hkv, hkveq⟩ := List.mem_map.mp hr
              have := hk3 kv hkv
              subst hkveq
              constructor <;> omega
            · rw [updateMem_miss outk nk b (.node kvs2) hbe] at hr
              have := hk4 b (by omega) (by omega) r hr
              constructor <;> omega

theorem flatMap_congr_mem {α β : Type} (l : List α) (f g : α → List β)
    (h : ∀ x ∈ l, f x = g x) : l.flatMap f = l.flatMap g := by
  induction l with
  | nil => rfl
  | cons x l ih =>
      simp only [List.flatMap_cons]
      rw [h x (List.mem_cons_self x l), ih (fun y hy => h y (List.mem_cons_of_mem x hy))]

theorem serialize_zero (mem : Nat → Cell) (a : Nat) : serialize 0 mem a = ["deep"] := rfl

theorem serialize_succ (g : Nat) (mem : Nat → Cell) (a : Nat) :
    serialize (g + 1) mem a =
      match mem a with
      | .atom s => ["atom", s]
      | .node kvs => "node" :: kvs.flatMap (fun kv => kv.1 :: serialize g mem kv.2) := rfl

/-- Observations depend only on the cells of a window that is closed under
references and contains the root. -/
theorem serialize_frame (g : Nat) :
    ∀ (mem1 mem2 : Nat → Cell) (lo hi a : Nat),
      lo ≤ a → a < hi →
      (∀ b, lo ≤ b → b < hi → mem1 b = mem2 b) →
      (∀ b, lo ≤ b → b < hi → ∀ r ∈ cellRefs (mem1 b), lo ≤ r ∧ r < hi) →
      serialize g mem1 a = serialize g mem2 a := by
  induction g with
  | zero => intro mem1 mem2 lo hi a _ _ _ _; rfl
  | succ g ih =>
      intro mem1 mem2 lo hi a ha1 ha2 hagree hclosed
      rw [serialize_succ, serialize_succ, ← hagree a ha1 ha2]
      cases hc : mem1 a with
      | atom s => rfl
      | node kvs =>
          have hrefs := hclosed a ha1 ha2
          rw [hc] at hrefs
          have hrefs2 : ∀ r ∈ kvs.map (fun kv => kv.2), lo ≤ r ∧ r < hi := hrefs
          show "node" :: kvs.flatMap (fun kv => kv.1 :: serialize g mem1 kv.2) =
            "node" :: kvs.flatMap (fun kv => kv.1 :: serialize g mem2 kv.2)
          congr 1
          apply flatMap_congr_mem
          intro kv hkv
          have hkv2 : kv.2 ∈ kvs.map (fun kv => kv.2) :=
            List.mem_map.mpr ⟨kv, hkv, rfl⟩
          obtain ⟨hr1, hr2⟩ := hrefs2 kv.2 hkv2
          rw [ih mem1 mem2 lo hi kv.2 hr1 hr2 hagree hclosed]

/-- The copy of a list of children observes, child by child, the same values
as the originals, once copying has finished and the final store is in place. -/
theorem dcKidsGo_serialize
    (rec : Nat → (Nat → Cell) → Nat → Option (Nat × (Nat → Cell) × Nat))
    (hrecI : ∀ a out n a2 out2 n2, rec a out n = some (a2, out2, n2) →
      CopyInv a2 out out2 n n2)
    (src : Nat → Cell)
    (hrecS : ∀ a out n a2 out2 n2, rec a out n = some (a2, out2, n2) →
      ∀ g, serialize g out2 a2 = serialize g src a) :
    ∀ (kvs : List (String × Nat)) (out : Nat → Cell) (n : Nat) kvs2 out2 n2,
      dcKidsGo rec kvs out n = some (kvs2, out2, n2) →
      ∀ g, kvs2.flatMap (fun kv => kv.1 :: serialize g out2 kv.2) =
        kvs.flatMap (fun kv => kv.1 :: serialize g src kv.2) := by
  intro kvs
  induction kvs with
  | nil =>
      intro out n kvs2 out2 n2 h g
      unfold dcKidsGo at h
      simp only [Option.some.injEq, Prod.mk.injEq] at h
      obtain ⟨h1, h2, h3⟩ := h
      subst h1
      rfl
  | cons kv rest ih =>
      intro out n kvs2 out2 n2 h g
      obtain ⟨k, a⟩ := kv
      unfold dcKidsGo at h
      split at h
      · exact absurd h (by simp)
      · rename_i a2 out1 n1 hr
        split at h
        · exact absurd h (by simp)
        · rename_i kvs1 outk nk hk
          simp only [Option.some.injEq, Prod.mk.injEq] at h
          obtain ⟨h1, h2, h3⟩ := h
          subst h1
          subst h2
          subst h3
          obtain ⟨hc1, hc2, hc3, hc4, hc5⟩ := hrecI a out n a2 out1 n1 hr
          obtain ⟨hk1, hk2, hk3, hk4⟩ :=
            dcKidsGo_inv rec hrecI rest out1 n1 kvs1 outk nk hk
          simp only [List.flatMap_cons]
          congr 1
          · congr 1
            have hstep : serialize g outk a2 = serialize g out1 a2 := by
              apply serialize_frame g outk out1 n n1 a2 hc2 hc3
              · intro b hb1 hb2
                exact hk2 b (Or.inl hb2)
              · intro b hb1 hb2 r hrr
                rw [hk2 b (Or.inl hb2)] at hrr
                exact hc5 b hb1 hb2 r hrr
            rw [hstep]
            exact hrecS a out n a2 out1 n1 hr g
          · exact ih out1 n1 kvs1 outk nk hk g

/-- A successful copy observes the same value as the original, at every
depth. -/
theorem dcAddr_serialize : ∀ (f : Nat) (src : Nat → Cell) (a : Nat)
    (out : Nat → Cell) (n a2 : Nat) (out2 : Nat → Cell) (n2 : Nat),
    dcAddr f src a out n = some (a2, out2, n2) →
    ∀ g, serialize g out2 a2 = serialize g src a := by
  intro f
  induction f with
  | zero =>
      intro src a out n a2 out2 n2 h
      exact absurd h (by simp [dcAddr])
  | succ f ih =>
      intro src a out n a2 out2 n2 h g
      unfold dcAddr at h
      split at h
      · rename_i s hs
        simp only [Option.some.injEq, Prod.mk.injEq] at h
        obtain ⟨h1, h2, h3⟩ := h
        subst h1
        subst h2
        cases g with
        | zero => rfl
        | succ g =>
            rw [serialize_succ, serialize_succ, hs, updateMem_hit]
      · rename_i kvs hs
        split at h
        · exact absurd h (by simp)
        · rename_i kvs2 outk nk hk
          simp only [Option.some.injEq, Prod.mk.injEq] at h
          obtain ⟨h1, h2, h3⟩ := h
          subst h1
          subst h2
          obtain ⟨hk1, hk2, hk3, hk4⟩ :=
            dcKidsGo_inv (dcAddr f src)
              (fun a out n a2 out2 n2 h => dcAddr_inv f src a out n a2 out2 n2 h)
              kvs out n kvs2 outk nk hk
          cases g with
          | zero => rfl
          | succ g =>
              rw [serialize_succ, serialize_succ, hs, updateMem_hit]
              show "node" :: kvs2.flatMap
                  (fun kv => kv.1 :: serialize g (updateMem outk nk (Cell.node kvs2)) kv.2) =
                "node" :: kvs.flatMap (fun kv => kv.1 :: serialize g src kv.2)
              congr 1
              have hstep : ∀ kv ∈ kvs2,
                  serialize g (updateMem outk nk (Cell.node kvs2)) kv.2 =
                    serialize g outk kv.2 := by
                intro kv hkv
                obtain ⟨hr1, hr2⟩ := hk3 kv hkv
                apply serialize_frame g (updateMem outk nk (Cell.node kvs2)) outk
                  n nk kv.2 hr1 hr2
                · intro b hb1 hb2
                  exact updateMem_miss outk nk b (Cell.node kvs2) (by omega)
                · intro b hb1 hb2 r hrr
                  rw [updateMem_miss outk nk b (Cell.node kvs2) (by omega)] at hrr
                  exact hk4 b hb1 hb2 r hrr
              have hcongr : kvs2.flatMap
                  (fun kv => kv.1 :: serialize g (updateMem outk nk (Cell.node kvs2)) kv.2) =
                  kvs2.flatMap (fun kv => kv.1 :: serialize g outk kv.2) := by
                apply flatMap_congr_mem
                intro kv hkv
                rw [hstep kv hkv]
              rw [hcongr]
              exact dcKidsGo_serialize (dcAddr f src)
                (fun a out n a2 out2 n2 h => dcAddr_inv f src a out n a2 out2 n2 h)
                src
                (fun a out n a2 out2 n2 h => ih src a out n a2 out2 n2 h)
                kvs out n kvs2 outk nk hk g


/-- Claim C7: the configuration handed to the GraphIteratorNode as
scraper_config by SmartScraperMultiConcatGraph (and identically by
DocumentScraperMultiGraph, which also deep-copies the schema the same way) is
a deep copy of the caller's config: the copy lives entirely at fresh
addresses, it observes the same value as the original at every depth,
mutating any pre-existing address (hence anything reachable from the caller's
config) leaves the copy's value unchanged, and mutating any fresh address
(hence anything in the copy) leaves the caller's config value unchanged. -/

theorem C7_deepcopy_no_sharing (fuel : Nat) (mem : Nat → Cell)
    (config next : Nat) (a2 : Nat) (out2 : Nat → Cell) (n2 : Nat)
    (hclosed : ∀ b, b < next → ∀ r ∈ cellRefs (mem b), r < next)
    (hcfg : config < next)
    (h : smartScraperMultiConcat_scraper_config fuel mem config next =
      some (a2, out2, n2)) :
    (next ≤ a2) ∧
    (∀ g, serialize g out2 a2 = serialize g mem config) ∧
    (∀ mem3 : Nat → Cell, (∀ b, next ≤ b → mem3 b = out2 b) →
      ∀ g, serialize g mem3 a2 = serialize g mem config) ∧
    (∀ mem3 : Nat → Cell, (∀ b, b < next → mem3 b = out2 b) →
      ∀ g, serialize g mem3 config = serialize g mem config) ∧
    documentScraperMulti_scraper_config fuel mem config next =
      some (a2, out2, n2) := by
  have hdc : dcAddr fuel mem config mem next = some (a2, out2, n2) := h
  obtain ⟨hi1, hi2, hi3, hi4, hi5⟩ :=
    dcAddr_inv fuel mem config mem next a2 out2 n2 hdc
  have hser : ∀ g, serialize g out2 a2 = serialize g mem config :=
    dcAddr_serialize fuel mem config mem next a2 out2 n2 hdc
  refine ⟨hi2, hser, ?_, ?_, h⟩
  · -- mutations of pre-existing addresses do not change the copy
    intro mem3 hagree g
    have hframe : serialize g mem3 a2 = serialize g out2 a2 := by
      apply serialize_frame g mem3 out2 next n2 a2 hi2 hi3
      · intro b hb1 hb2
        exact hagree b hb1
      · intro b hb1 hb2 r hr
        rw [hagree b hb1] at hr
        exact hi5 b hb1 hb2 r hr
    rw [hframe]
    exact hser g
  · -- mutations of fresh addresses do not change the original
    intro mem3 hagree g
    apply serialize_frame g mem3 mem 0 next config (Nat.zero_le config) hcfg
    · intro b _ hb2
      rw [hagree b hb2]
      exact hi4 b (Or.inl hb2)
    · intro b _ hb2 r hr
      rw [hagree b hb2, hi4 b (Or.inl hb2)] at hr
      exact ⟨Nat.zero_le r, hclosed b hb2 r hr⟩


/-- Claim C7, witness: the theorem applied to a concrete two-cell heap; the
copied configuration at address 3 observes the same value as the original at
address 0. -/

theorem C7_witness : serialize 3 outExample 3 = serialize 3 memExample 0 :=
  (C7_deepcopy_no_sharing 2 memExample 0 2 3 outExample 4
    (by decide) (by decide) rfl).2.1 3


end Scrape
